import Mathlib

namespace FileSyncer

/-!
Verification of the file-syncer synchronization engine (src/src/lib.rs).

The embedding models strings as `List Char` (a Rust `String` is valid UTF-8,
so its byte content is determined by its character sequence; byte positions
are recovered through `Char.utf8Size`).  A relative path — as produced by the
tree walker, i.e. a sequence of normal components — is modelled as
`List (List Char)`, one element per component.  On such paths Rust's
`Path::file_name` is the last component and `Path::set_file_name` replaces it
(or appends when the path is empty), which is exactly what the definitions
below compute.  Fallible Rust operations (byte slicing of `&str`, which
panics off a character boundary) are modelled with `Option`.
-/

/-- The reserved suffix constant `GZIP_SUFFIX = "-gzipped.txt"` from lib.rs. -/
def GZIP_SUFFIX : List Char := "-gzipped.txt".data

/-- Rust `Path::file_name` for a path made of normal components: its last
component (none for the empty path). -/
def file_name (p : List (List Char)) : Option (List Char) :=
  p.getLast?

/-- Rust `PathBuf::set_file_name` for a path of normal components: drop the last
component and push the new name (for the empty path this is a plain push,
matching Rust's behaviour when `file_name()` is `None`). -/
def set_file_name (p : List (List Char)) (n : List Char) : List (List Char) :=
  p.dropLast ++ [n]

/-- Rust `str::strip_suffix`: remove one trailing occurrence of `suffix`
if present, else `none`. -/
def strip_suffix (s suffix : List Char) : Option (List Char) :=
  if suffix.isSuffixOf s then some (s.take (s.length - suffix.length)) else none

/-- The function `compress_relative_path` (lib.rs 324-330): append `GZIP_SUFFIX` to the
file-name component when there is one. -/
def compress_relative_path (p : List (List Char)) : List (List Char) :=
  match file_name p with
  | some name => set_file_name p (name ++ GZIP_SUFFIX)
  | none => p

/-- The function `original_file_name` (lib.rs 340-346): strip one trailing `GZIP_SUFFIX`
from the file-name component. -/
def original_file_name (p : List (List Char)) : Option (List (List Char)) :=
  (file_name p).bind fun name =>
    (strip_suffix name GZIP_SUFFIX).map fun stripped => set_file_name p stripped

/-- The function `decompress_relative_path` (lib.rs 332-338). -/
def decompress_relative_path (p : List (List Char)) : List (List Char) :=
  match original_file_name p with
  | some original => original
  | none => p

/-- The function `is_gzipped_file` (lib.rs 348-354). -/
def is_gzipped_file (p : List (List Char)) : Bool :=
  match file_name p with
  | some name => GZIP_SUFFIX.isSuffixOf name
  | none => false

/-! ### Git-status parsing (lib.rs 395-429)

Rust's `str::len` counts BYTES and `&line[0..2]` / `&line[3..]` slice at
BYTE offsets, panicking when an offset is not a character boundary.
`splitAtByte n` splits a character list at byte offset `n`; it is `none`
exactly when `n` is not a character boundary, which models the panic. -/

/-- The UTF-8 byte length of a character list (Rust `str::len`). -/
def utf8Len (cs : List Char) : Nat := (cs.map Char.utf8Size).sum

/-- Split a character list at byte offset `n`; `none` when `n` falls inside
a character (where Rust byte-slicing panics). -/
def splitAtByte : Nat → List Char → Option (List Char × List Char)
  | 0, cs => some ([], cs)
  | _ + 1, [] => none
  | n + 1, c :: cs =>
    if c.utf8Size ≤ n + 1 then
      (splitAtByte (n + 1 - c.utf8Size) cs).map fun pr => (c :: pr.1, pr.2)
    else none

/-- The structure `FileChangeStats` (lib.rs 395-400). -/
structure FileChangeStats where
  added : List (List Char)
  modified : List (List Char)
  deleted : List (List Char)
  deriving Repr, DecidableEq

/-- The rename separator `" -> "` used by `parse_git_status`. -/
def RENAME_SEP : List Char := " -> ".data

/-- Rust `filename.find(" -> ")` followed by `filename[(idx + 4)..]`: the text
after the first occurrence of the separator, `none` when absent. -/
def after_rename_sep : List Char → Option (List Char)
  | [] => none
  | c :: cs =>
    if RENAME_SEP.isPrefixOf (c :: cs) then some (cs.drop 3)
    else after_rename_sep cs

/-- One iteration of the `parse_git_status` loop (lib.rs 405-426): skip
lines shorter than 3 bytes, slice the status code from bytes 0..2 and the
path from byte 3 on (`none` models the boundary panic), then classify. -/
def parse_line (stats : FileChangeStats) (line : List Char) :
    Option FileChangeStats :=
  if utf8Len line < 3 then some stats
  else
    match splitAtByte 2 line, splitAtByte 3 line with
    | some (status_code, _), some (_, filename) =>
      if status_code = "A ".data ∨ status_code = "??".data then
        some { stats with added := stats.added ++ [filename] }
      else if status_code = "M ".data ∨ status_code = " M".data ∨
          status_code = "MM".data then
        some { stats with modified := stats.modified ++ [filename] }
      else if status_code = "D ".data ∨ status_code = " D".data then
        some { stats with deleted := stats.deleted ++ [filename] }
      else if status_code.head? = some 'R' then
        some { stats with modified :=
          stats.modified ++ [(after_rename_sep filename).getD filename] }
      else some stats
    | _, _ => none

/-- The function `parse_git_status` (lib.rs 402-429): split on newlines and fold the
per-line step over an initially empty `FileChangeStats`. -/
def parse_git_status (status_output : List Char) : Option FileChangeStats :=
  (status_output.splitOn '\n').foldlM parse_line ⟨[], [], []⟩

/-- Classification categories of the status grammar. -/
inductive ChangeKind where
  | added
  | modified
  | deleted
  deriving Repr, DecidableEq

/-- The claim's per-line grammar (with the length test and the code/path
split read at byte offsets, as the code performs them): which category a
line contributes to and with which path; `none` for skipped lines. -/
def line_entry (line : List Char) : Option (ChangeKind × List Char) :=
  if utf8Len line < 3 then none
  else
    match splitAtByte 2 line, splitAtByte 3 line with
    | some (status_code, _), some (_, filename) =>
      if status_code = "A ".data ∨ status_code = "??".data then
        some (.added, filename)
      else if status_code = "M ".data ∨ status_code = " M".data ∨
          status_code = "MM".data then
        some (.modified, filename)
      else if status_code = "D ".data ∨ status_code = " D".data then
        some (.deleted, filename)
      else if status_code.head? = some 'R' then
        some (.modified, (after_rename_sep filename).getD filename)
      else none
    | _, _ => none

/-- A line is processable without a boundary panic: either shorter than
3 bytes, or byte offsets 2 and 3 both fall on character boundaries. -/
def line_ok (line : List Char) : Bool :=
  decide (utf8Len line < 3) ||
    ((splitAtByte 2 line).isSome && (splitAtByte 3 line).isSome)

/-- Add one classified entry to the accumulated stats. -/
def apply_entry (stats : FileChangeStats) :
    Option (ChangeKind × List Char) → FileChangeStats
  | none => stats
  | some (.added, f) => { stats with added := stats.added ++ [f] }
  | some (.modified, f) => { stats with modified := stats.modified ++ [f] }
  | some (.deleted, f) => { stats with deleted := stats.deleted ++ [f] }

/-- The paths contributed to category `k`, in line order, per the claim's
grammar. -/
def collect (k : ChangeKind) (lines : List (List Char)) : List (List Char) :=
  lines.filterMap fun l =>
    (line_entry l).bind fun e => if e.1 = k then some e.2 else none

/-- Decidable rendering of the claim's pairwise-disjointness property of
the three `FileChangeStats` lists. -/
def stats_disjoint (stats : FileChangeStats) : Bool :=
  stats.added.all
      (fun x => !stats.modified.contains x && !stats.deleted.contains x) &&
    stats.modified.all (fun x => !stats.deleted.contains x)

/-! ### Commit-message synthesis (lib.rs 431-495) -/

/-- Decimal rendering of a count, as Rust `format!("{n}")`. -/
def natChars (n : Nat) : List Char := (Nat.repr n).data

/-- Rust `char::is_whitespace`: the Unicode `White_Space` code points. -/
def rust_is_whitespace (c : Char) : Bool :=
  (0x09 ≤ c.toNat && c.toNat ≤ 0x0D) || c.toNat = 0x20 || c.toNat = 0x85 ||
    c.toNat = 0xA0 || c.toNat = 0x1680 ||
    (0x2000 ≤ c.toNat && c.toNat ≤ 0x200A) || c.toNat = 0x2028 ||
    c.toNat = 0x2029 || c.toNat = 0x202F || c.toNat = 0x205F ||
    c.toNat = 0x3000

/-- Rust `str::trim`: remove leading and trailing whitespace. -/
def rustTrim (cs : List Char) : List Char :=
  ((cs.dropWhile rust_is_whitespace).reverse.dropWhile
    rust_is_whitespace).reverse

/-- The function `generate_commit_message` (lib.rs 431-495), transcribed push by push:
the subject accumulates `"Sync "`, the total, `" file"`, an `'s'` when the
total is not 1, and a parenthesized comma-joined parts list when parts is
non-empty; the body concatenates one section per non-empty list (a `'\n'`
pushed before each section after the first) and is finally trimmed. -/
def generate_commit_message (stats : FileChangeStats) :
    List Char × List Char :=
  let total :=
    stats.added.length + stats.modified.length + stats.deleted.length
  let subject1 := "Sync ".data ++ natChars total ++ " file".data
  let subject2 := if total ≠ 1 then subject1 ++ ['s'] else subject1
  let parts : List (List Char) :=
    (if stats.added = [] then []
      else [natChars stats.added.length ++ " added".data]) ++
    (if stats.modified = [] then []
      else [natChars stats.modified.length ++ " modified".data]) ++
    (if stats.deleted = [] then []
      else [natChars stats.deleted.length ++ " deleted".data])
  let subject := if parts = [] then subject2
    else subject2 ++ " (".data ++ List.intercalate ", ".data parts ++ [')']
  let secA := "Added files:\n".data ++
    stats.added.flatMap fun f => "  + ".data ++ f ++ ['\n']
  let secM := "Modified files:\n".data ++
    stats.modified.flatMap fun f => "  ~ ".data ++ f ++ ['\n']
  let secD := "Deleted files:\n".data ++
    stats.deleted.flatMap fun f => "  - ".data ++ f ++ ['\n']
  let body :=
    (if stats.added = [] then [] else secA) ++
    (if stats.modified = [] then []
      else (if stats.added ≠ [] then ['\n'] else []) ++ secM) ++
    (if stats.deleted = [] then []
      else (if stats.added ≠ [] ∨ stats.modified ≠ [] then ['\n'] else [])
        ++ secD)
  (subject, rustTrim body)

/-- The claim's rendering of the commit subject: `"Sync N file"` with an
`'s'` appended when `N ≠ 1`, then — when at least one list is non-empty —
a parenthesized comma-joined summary of the non-empty counts in the order
added, modified, deleted. -/
def claim_subject (stats : FileChangeStats) : List Char :=
  let total :=
    stats.added.length + stats.modified.length + stats.deleted.length
  "Sync ".data ++ natChars total ++ " file".data ++
    (if total = 1 then [] else ['s']) ++
    (if stats.added = [] ∧ stats.modified = [] ∧ stats.deleted = [] then []
      else " (".data ++
        List.intercalate ", ".data
          ((if stats.added = [] then []
            else [natChars stats.added.length ++ " added".data]) ++
          (if stats.modified = [] then []
            else [natChars stats.modified.length ++ " modified".data]) ++
          (if stats.deleted = [] then []
            else [natChars stats.deleted.length ++ " deleted".data])) ++
        [')'])

/-- The untrimmed commit body accumulated by `generate_commit_message`
(lib.rs 459-492): one section per non-empty list, a `'\n'` pushed before
each section after the first (the `first_section` flag). -/
def body_raw (stats : FileChangeStats) : List Char :=
  (if stats.added = [] then []
    else "Added files:\n".data ++
      stats.added.flatMap fun f => "  + ".data ++ f ++ ['\n']) ++
  (if stats.modified = [] then []
    else (if stats.added ≠ [] then ['\n'] else []) ++
      ("Modified files:\n".data ++
        stats.modified.flatMap fun f => "  ~ ".data ++ f ++ ['\n'])) ++
  (if stats.deleted = [] then []
    else (if stats.added ≠ [] ∨ stats.modified ≠ [] then ['\n'] else []) ++
      ("Deleted files:\n".data ++
        stats.deleted.flatMap fun f => "  - ".data ++ f ++ ['\n']))

/-- The claim's rendering of one labeled body section: the header, a line
break, then the entries each on its own line with the category mark. -/
def claim_section (header mark : List Char) (files : List (List Char)) :
    List Char :=
  header ++ ['\n'] ++ List.intercalate ['\n'] (files.map fun f => mark ++ f)

/-- The claim's body sections in the fixed order Added → Modified →
Deleted, one per non-empty list. -/
def claim_sections (stats : FileChangeStats) : List (List Char) :=
  (if stats.added = [] then []
    else [claim_section "Added files:".data "  + ".data stats.added]) ++
  (if stats.modified = [] then []
    else [claim_section "Modified files:".data "  ~ ".data stats.modified]) ++
  (if stats.deleted = [] then []
    else [claim_section "Deleted files:".data "  - ".data stats.deleted])

/-- The claim's rendering of the whole commit body: the sections joined by
exactly one blank line, with no leading or trailing blank lines. -/
def claim_body (stats : FileChangeStats) : List Char :=
  List.intercalate ['\n', '\n'] (claim_sections stats)

/-- The last entry the body renders: the last element of the last non-empty
list in render order (deleted, else modified, else added). -/
def last_entry (stats : FileChangeStats) : Option (List Char) :=
  match stats.deleted.getLast? with
  | some f => some f
  | none =>
    match stats.modified.getLast? with
    | some f => some f
    | none => stats.added.getLast?

/-- An entry whose rendered line survives the final trim: non-empty and not
ending in a whitespace character. -/
def ends_ok (f : List Char) : Bool :=
  match f.getLast? with
  | some c => !(rust_is_whitespace c)
  | none => false

/-! ### The tree walk of `sync_files_with_transform` (lib.rs 278-297)

A source tree is a list of entries (files and directories with children).
`walk_entry`/`walk_entries` produce, depth-first with directories before
their descendants, the relative paths the sync loop processes: for each
entry the loop computes `rel_path = pre ++ [name]` and, when the FIRST path
component equals `".git"`, skips it (`continue`; for a directory also
`skip_current_dir`, which prunes the subtree — the empty result of the
guarded branch). -/

/-- The VCS metadata directory name checked by the walker. -/
def GIT_DIR : List Char := ".git".data

mutual
inductive Entry where
  | file : List Char → Entry
  | dir : List Char → EntryList → Entry
  deriving DecidableEq
inductive EntryList where
  | nil : EntryList
  | cons : Entry → EntryList → EntryList
  deriving DecidableEq
end

mutual
def walk_entry (pre : List (List Char)) :
    Entry → List (List (List Char) × Bool)
  | .file n =>
    if (pre ++ [n]).head? = some GIT_DIR then [] else [(pre ++ [n], false)]
  | .dir n children =>
    if (pre ++ [n]).head? = some GIT_DIR then []
    else (pre ++ [n], true) :: walk_entries (pre ++ [n]) children

def walk_entries (pre : List (List Char)) :
    EntryList → List (List (List Char) × Bool)
  | .nil => []
  | .cons e rest => walk_entry pre e ++ walk_entries pre rest
end

/-- The relative paths (with their directory flag) that one sync pass
mirrors from a source tree, in walk order. -/
def sync_walk (root : EntryList) : List (List (List Char) × Bool) :=
  walk_entries [] root

/-- A source tree holding `a/.git/f`: a metadata-named directory nested one
level deep. -/
def nested_git_tree : EntryList :=
  .cons (.dir "a".data
    (.cons (.dir ".git".data (.cons (.file "f".data) .nil)) .nil)) .nil

/-- A source tree holding a top-level `.git/config` plus `test.txt`,
mirroring the repository's own `sync_files_skips_git_directory` test. -/
def top_git_tree : EntryList :=
  .cons (.dir ".git".data (.cons (.file "config".data) .nil))
    (.cons (.file "test.txt".data) .nil)

/-! ### Shell escaping for the SSH transport (lib.rs 497-516) -/

/-- The escape set string `needs_escape` from `escape_shell_arg`
(lib.rs 498). -/
def needs_escape : List Char :=
  " \t\n\r\"\x27`$\\|&;<>()\x7b\x7d[]!*?".data

/-- The function `escape_shell_arg` (lib.rs 497-509): backslash-prefix every character
of the escape set, keeping all characters in order. -/
def escape_shell_arg (input : List Char) : List Char :=
  input.flatMap fun ch =>
    if needs_escape.contains ch then ['\\', ch] else [ch]

/-- The function `build_git_ssh_command` (lib.rs 511-516). -/
def build_git_ssh_command (ssh_key_path : List Char) : List Char :=
  "ssh -i ".data ++ escape_shell_arg ssh_key_path ++
    " -o IdentitiesOnly=yes -o StrictHostKeyChecking=accept-new".data

/-- The characters the claim says get a backslash: space, tab, newline,
carriage-return, double quote, apostrophe, backtick, dollar, backslash,
pipe, ampersand, semicolon, angle brackets, parentheses, braces, square
brackets, bang, star, question mark. -/
def claim_escape_set : List Char :=
  [' ', '\t', '\n', '\r', '"', '\x27', '`', '$', '\\', '|', '&', ';', '<',
   '>', '(', ')', '\x7b', '\x7d', '[', ']', '!', '*', '?']

theorem strip_suffix_append (n suf : List Char) :
    strip_suffix (n ++ suf) suf = some n := by
  unfold strip_suffix
  rw [if_pos]
  · rw [List.length_append, Nat.add_sub_cancel, List.take_left]
  · exact List.isSuffixOf_iff_suffix.mpr (List.suffix_append n suf)

theorem compress_concat (dirs : List (List Char)) (name : List Char) :
    compress_relative_path (dirs ++ [name]) = dirs ++ [name ++ GZIP_SUFFIX] := by
  unfold compress_relative_path file_name set_file_name
  rw [List.getLast?_concat, List.dropLast_concat]

theorem decompress_concat (dirs : List (List Char)) (name : List Char) :
    decompress_relative_path (dirs ++ [name ++ GZIP_SUFFIX]) = dirs ++ [name] := by
  unfold decompress_relative_path original_file_name file_name set_file_name
  rw [List.getLast?_concat, List.dropLast_concat]
  simp [strip_suffix_append]

theorem exists_concat_of_getLast (p : List (List Char)) (name : List Char)
    (h : p.getLast? = some name) : p.dropLast ++ [name] = p := by
  cases p with
  | nil => simp at h
  | cons a l =>
    have hne : a :: l ≠ [] := by simp
    rw [List.getLast?_eq_getLast (a :: l) hne] at h
    have := List.dropLast_append_getLast hne
    rw [Option.some_inj.mp h] at this
    exact this

/-- Claim C1: for every relative path `p` whose file name does not already end
with the reserved suffix `"-gzipped.txt"`, composing the compress path
transform with the decompress path transform is the identity:
`decompress_relative_path (compress_relative_path p) = p`. -/
theorem C1_compress_decompress_round_trip (p : List (List Char))
    (hsuf : ∀ name, file_name p = some name → ¬ GZIP_SUFFIX.isSuffixOf name) :
    decompress_relative_path (compress_relative_path p) = p := by
  clear hsuf
  cases hl : p.getLast? with
  | none =>
    have hp : p = [] := List.getLast?_eq_none_iff.mp hl
    subst hp
    rfl
  | some name =>
    have hp : p.dropLast ++ [name] = p := exists_concat_of_getLast p name hl
    calc decompress_relative_path (compress_relative_path p)
        = decompress_relative_path (compress_relative_path (p.dropLast ++ [name])) := by
          rw [hp]
      _ = decompress_relative_path (p.dropLast ++ [name ++ GZIP_SUFFIX]) := by
          rw [compress_concat]
      _ = p.dropLast ++ [name] := decompress_concat p.dropLast name
      _ = p := hp

/-- Witness for C1 at the concrete path `dir/file.txt`. -/
theorem C1_witness :
    (∀ name, file_name ["dir".data, "file.txt".data] = some name →
      ¬ GZIP_SUFFIX.isSuffixOf name) ∧
    decompress_relative_path (compress_relative_path ["dir".data, "file.txt".data]) =
      ["dir".data, "file.txt".data] :=
  ⟨by decide, C1_compress_decompress_round_trip ["dir".data, "file.txt".data] (by decide)⟩

/-- Claim C5 counterexample: the claim asserts
`compress_relative_path (compress_relative_path p) = compress_relative_path p`
for paths whose file name already carries the reserved suffix.  At the
concrete path `"x-gzipped.txt"` (which carries the suffix) one compress pass
yields `"x-gzipped.txt-gzipped.txt"` and a second pass appends the suffix yet
again, so the claimed idempotence equation is false. -/
theorem C5_counterexample :
    GZIP_SUFFIX.isSuffixOf "x-gzipped.txt".data = true ∧
    compress_relative_path ["x-gzipped.txt".data] =
      ["x-gzipped.txt-gzipped.txt".data] ∧
    compress_relative_path (compress_relative_path ["x-gzipped.txt".data]) ≠
      compress_relative_path ["x-gzipped.txt".data] := by
  refine ⟨by decide, by decide, ?_⟩
  decide

/-- Claim C5 (amended): for every path `p = dirs ++ [name]` whose file name
`name` already carries the reserved suffix, one compress pass DOES append the
suffix a second time: the stored name becomes `name ++ "-gzipped.txt"`
(now carrying the suffix twice), and `compress_relative_path` is not
idempotent — a second pass changes the path again. -/
theorem C5_compress_not_idempotent (dirs : List (List Char)) (name : List Char)
    (hsuf : GZIP_SUFFIX.isSuffixOf name = true) :
    compress_relative_path (dirs ++ [name]) = dirs ++ [name ++ GZIP_SUFFIX] ∧
    compress_relative_path (compress_relative_path (dirs ++ [name])) ≠
      compress_relative_path (dirs ++ [name]) := by
  clear hsuf
  refine ⟨compress_concat dirs name, ?_⟩
  rw [compress_concat, compress_concat]
  intro h
  have h2 := List.append_inj_right h (by rfl)
  have h3 : name ++ GZIP_SUFFIX ++ GZIP_SUFFIX = name ++ GZIP_SUFFIX :=
    (List.cons_eq_cons.mp h2).1
  have hlen := congrArg List.length h3
  simp [List.length_append] at hlen
  exact absurd hlen (by decide)

/-- Witness for C5 (amended) at the concrete path `"x-gzipped.txt"`. -/
theorem C5_witness :
    GZIP_SUFFIX.isSuffixOf "x-gzipped.txt".data = true ∧
    (compress_relative_path ["x-gzipped.txt".data] =
      ["x-gzipped.txt".data ++ GZIP_SUFFIX] ∧
    compress_relative_path (compress_relative_path ["x-gzipped.txt".data]) ≠
      compress_relative_path ["x-gzipped.txt".data]) :=
  ⟨by decide, C5_compress_not_idempotent [] "x-gzipped.txt".data (by decide)⟩

/-- Claim C10: `decompress_relative_path` strips exactly one trailing
occurrence of the suffix: on a file name ending in the suffix twice,
`stem ++ "-gzipped.txt" ++ "-gzipped.txt"`, the result keeps one suffix
occurrence (`stem ++ "-gzipped.txt"`), and consequently
`decompress_relative_path` is not idempotent on such doubly-suffixed names;
in particular `"f-gzipped.txt-gzipped.txt"` decompresses to
`"f-gzipped.txt"`. -/
theorem C10_decompress_strips_one_suffix :
    (∀ (dirs : List (List Char)) (stem : List Char),
      decompress_relative_path (dirs ++ [stem ++ GZIP_SUFFIX ++ GZIP_SUFFIX]) =
        dirs ++ [stem ++ GZIP_SUFFIX] ∧
      decompress_relative_path
          (decompress_relative_path (dirs ++ [stem ++ GZIP_SUFFIX ++ GZIP_SUFFIX])) ≠
        decompress_relative_path (dirs ++ [stem ++ GZIP_SUFFIX ++ GZIP_SUFFIX])) ∧
    decompress_relative_path ["f-gzipped.txt-gzipped.txt".data] =
      ["f-gzipped.txt".data] := by
  constructor
  · intro dirs stem
    refine ⟨decompress_concat dirs (stem ++ GZIP_SUFFIX), ?_⟩
    rw [decompress_concat dirs (stem ++ GZIP_SUFFIX), decompress_concat dirs stem]
    intro h
    have h2 := List.append_inj_right h (by rfl)
    have h3 : stem = stem ++ GZIP_SUFFIX := by
      have := List.cons_eq_cons.mp h2
      exact this.1
    have hlen := congrArg List.length h3
    simp [List.length_append] at hlen
    exact absurd hlen (by decide)
  · decide

theorem parse_line_eq (stats : FileChangeStats) (line : List Char)
    (hok : line_ok line = true) :
    parse_line stats line = some (apply_entry stats (line_entry line)) := by
  unfold parse_line line_entry
  by_cases h3 : utf8Len line < 3
  · simp [h3, apply_entry]
  · unfold line_ok at hok
    simp only [Bool.or_eq_true, decide_eq_true_eq, Bool.and_eq_true,
      Option.isSome_iff_exists] at hok
    rcases hok with hlt | ⟨⟨pr2, e2⟩, ⟨pr3, e3⟩⟩
    · exact absurd hlt h3
    simp only [if_neg h3, e2, e3]
    obtain ⟨code, rest2⟩ := pr2
    obtain ⟨head3, filename⟩ := pr3
    split_ifs <;> rfl

theorem collect_cons (k : ChangeKind) (l : List Char) (ls : List (List Char)) :
    collect k (l :: ls) =
      ((line_entry l).bind fun e => if e.1 = k then some e.2 else none).toList
        ++ collect k ls := by
  unfold collect
  rw [List.filterMap_cons]
  cases (line_entry l).bind fun e => if e.1 = k then some e.2 else none <;> simp

theorem foldlM_parse_line : ∀ (lines : List (List Char))
    (stats : FileChangeStats), (∀ l ∈ lines, line_ok l = true) →
    lines.foldlM parse_line stats =
      some ⟨stats.added ++ collect .added lines,
            stats.modified ++ collect .modified lines,
            stats.deleted ++ collect .deleted lines⟩ := by
  intro lines
  induction lines with
  | nil => intro stats _; simp [collect]
  | cons l ls ih =>
    intro stats hok
    have hl : line_ok l = true := hok l (by simp)
    have hls : ∀ x ∈ ls, line_ok x = true := fun x hx => hok x (by simp [hx])
    have hstep : (l :: ls).foldlM parse_line stats =
        (parse_line stats l).bind fun s => ls.foldlM parse_line s := rfl
    rw [hstep, parse_line_eq stats l hl, Option.some_bind,
      ih (apply_entry stats (line_entry l)) hls]
    cases e : line_entry l with
    | none => simp [apply_entry, collect_cons, e]
    | some entry =>
      obtain ⟨k, f⟩ := entry
      cases k <;> simp [apply_entry, collect_cons, e, List.append_assoc]

/-- Claim C2 counterexample: the claim states that lines shorter than 3
characters are skipped and every line is classified by the grammar (always
producing stats).  The input `"éé"` is a single 2-character line, so the
claim predicts it is skipped, yielding empty stats; but its UTF-8 byte
length is 4, so the code proceeds and `&line[3..]` slices inside the second
character — a panic, modelled as `none`. -/
theorem C2_counterexample :
    parse_git_status "éé".data = none ∧
    parse_git_status "éé".data ≠ some ⟨[], [], []⟩ := by
  exact ⟨by decide, by decide⟩

/-- Claim C2 (amended): `parse_git_status` classifies by the stated grammar
with the length test and the code/path split read at BYTE offsets (Rust
`str::len` and slicing): on inputs whose lines are each either shorter than
3 bytes or splittable at byte offsets 2 and 3 (in particular all ASCII
inputs), the result collects, per category and in line order, exactly the
paths assigned by the grammar (codes `"A "`/`"??"` to added, `"M "`/`" M"`/
`"MM"` to modified, `"D "`/`" D"` to deleted, codes starting `'R'` to
modified with the text after the first `" -> "`, all others skipped); lines
whose byte offsets 2 or 3 break a character are a panic instead.  The
claim's concrete examples hold as stated. -/
theorem C2_status_grammar :
    (∀ input : List Char, (∀ l ∈ input.splitOn '\n', line_ok l = true) →
      parse_git_status input =
        some ⟨collect .added (input.splitOn '\n'),
              collect .modified (input.splitOn '\n'),
              collect .deleted (input.splitOn '\n')⟩) ∧
    parse_git_status "A  newfile.txt".data =
      some ⟨["newfile.txt".data], [], []⟩ ∧
    parse_git_status "R  old-name.txt -> new-name.txt".data =
      some ⟨[], ["new-name.txt".data], []⟩ := by
  refine ⟨?_, by decide, by decide⟩
  intro input hok
  unfold parse_git_status
  rw [foldlM_parse_line (input.splitOn '\n') ⟨[], [], []⟩ hok]
  simp

/-- Witness for C2 (amended) at the concrete input `"A  newfile.txt"`. -/
theorem C2_witness :
    (∀ l ∈ ("A  newfile.txt".data).splitOn '\n', line_ok l = true) ∧
    parse_git_status "A  newfile.txt".data =
      some ⟨collect .added (("A  newfile.txt".data).splitOn '\n'),
            collect .modified (("A  newfile.txt".data).splitOn '\n'),
            collect .deleted (("A  newfile.txt".data).splitOn '\n')⟩ :=
  ⟨by decide, C2_status_grammar.1 "A  newfile.txt".data (by decide)⟩

theorem utf8Len_eq_length_of_ascii (l : List Char)
    (h : ∀ c ∈ l, c.utf8Size = 1) : utf8Len l = l.length := by
  induction l with
  | nil => rfl
  | cons c cs ih =>
    have hc := h c (by simp)
    have hcs := ih (fun x hx => h x (by simp [hx]))
    simp only [utf8Len, List.map_cons, List.sum_cons, List.length_cons, hc]
    simp only [utf8Len] at hcs
    omega

theorem splitAtByte_isSome_of_ascii : ∀ (n : Nat) (l : List Char),
    (∀ c ∈ l, c.utf8Size = 1) → n ≤ l.length →
    (splitAtByte n l).isSome = true := by
  intro n
  induction n with
  | zero => intro l _ _; simp [splitAtByte]
  | succ m ih =>
    intro l hall hle
    cases l with
    | nil => simp at hle
    | cons c cs =>
      have hc : c.utf8Size = 1 := hall c (by simp)
      have hrec := ih cs (fun x hx => hall x (by simp [hx]))
        (by simpa using hle)
      simp only [splitAtByte, hc]
      rw [if_pos (by omega), Nat.add_sub_cancel]
      cases hres : splitAtByte m cs with
      | none => rw [hres] at hrec; simp at hrec
      | some pr => simp

theorem line_ok_of_ascii (l : List Char) (h : ∀ c ∈ l, c.utf8Size = 1) :
    line_ok l = true := by
  unfold line_ok
  by_cases h3 : utf8Len l < 3
  · simp [h3]
  · have hlen : 3 ≤ l.length := by
      rw [← utf8Len_eq_length_of_ascii l h]; omega
    simp [h3, splitAtByte_isSome_of_ascii 2 l h (by omega),
      splitAtByte_isSome_of_ascii 3 l h hlen]

/-- Claim C9 counterexample: the claim asserts totality on every input,
including non-ASCII.  On `"€"` (one 3-byte character, so `line.len() = 3`)
the code slices `&line[0..2]` inside the character — a panic, modelled as
`none` — rather than returning stats. -/
theorem C9_counterexample : parse_git_status "€".data = none := by
  decide

/-- Claim C9 (amended): `parse_git_status` returns a `FileChangeStats` for
every input whose lines are all ASCII (more generally, whose lines slice
cleanly at byte offsets 2 and 3); on such inputs unrecognized and too-short
lines are silently skipped, leaving the stats unchanged, never an error.
On lines where byte offset 2 or 3 falls inside a multi-byte character the
byte-slicing panics instead (modelled as `none`). -/
theorem C9_parse_total (input : List Char)
    (hascii : ∀ l ∈ input.splitOn '\n', ∀ c ∈ l, c.utf8Size = 1) :
    (∃ stats, parse_git_status input = some stats) ∧
    (∀ (stats : FileChangeStats) (l : List Char), line_ok l = true →
      line_entry l = none → parse_line stats l = some stats) := by
  constructor
  · exact ⟨_, foldlM_parse_line (input.splitOn '\n') ⟨[], [], []⟩
      (fun l hl => line_ok_of_ascii l (hascii l hl))⟩
  · intro stats l hok hnone
    rw [parse_line_eq stats l hok, hnone]
    rfl

/-- Witness for C9 (amended) at a concrete input with an untracked line, an
unrecognized code and a too-short line. -/
theorem C9_witness :
    (∀ l ∈ ("?? new.txt\nZZ strange.txt\nhi".data).splitOn '\n',
      ∀ c ∈ l, c.utf8Size = 1) ∧
    ((∃ stats, parse_git_status "?? new.txt\nZZ strange.txt\nhi".data =
        some stats) ∧
     (∀ (stats : FileChangeStats) (l : List Char), line_ok l = true →
        line_entry l = none → parse_line stats l = some stats)) :=
  ⟨by decide, C9_parse_total "?? new.txt\nZZ strange.txt\nhi".data (by decide)⟩

theorem mem_collect (k : ChangeKind) (lines : List (List Char))
    (x : List Char) :
    x ∈ collect k lines ↔ (k, x) ∈ lines.filterMap line_entry := by
  unfold collect
  rw [List.mem_filterMap, List.mem_filterMap]
  constructor
  · rintro ⟨l, hl, hb⟩
    rw [Option.bind_eq_some] at hb
    obtain ⟨⟨k', f⟩, he, hif⟩ := hb
    dsimp only at hif
    by_cases hk : k' = k
    · rw [if_pos hk] at hif
      cases hif
      subst hk
      exact ⟨l, hl, he⟩
    · rw [if_neg hk] at hif
      cases hif
  · rintro ⟨l, hl, he⟩
    refine ⟨l, hl, ?_⟩
    rw [he]
    simp

theorem collect_disjoint (lines : List (List Char))
    (hnodup : ((lines.filterMap line_entry).map Prod.snd).Nodup)
    (k1 k2 : ChangeKind) (hk : k1 ≠ k2) :
    ∀ x ∈ collect k1 lines, x ∉ collect k2 lines := by
  intro x h1 h2
  rw [mem_collect] at h1 h2
  have heq := List.inj_on_of_nodup_map hnodup h1 h2 rfl
  injection heq with ha _
  exact hk ha

/-- Claim C7 counterexample: the claim asserts disjointness for EVERY status
text; on `"A  f\nM  f"` (the same path reported on an add line and a modify
line) the parser puts `"f"` into both added and modified. -/
theorem C7_counterexample :
    parse_git_status "A  f\nM  f".data =
      some ⟨["f".data], ["f".data], []⟩ ∧
    stats_disjoint ⟨["f".data], ["f".data], []⟩ = false := by
  exact ⟨by decide, by decide⟩

/-- Claim C7 (amended): for every status report text whose lines slice
cleanly (no panic) and whose classified lines extract pairwise-distinct
paths, the three resulting lists added, modified and deleted are pairwise
disjoint as sets of paths.  (Without the distinctness proviso the same path
may be reported under two codes and lands in two lists.) -/
theorem C7_lists_disjoint (input : List Char) (stats : FileChangeStats)
    (hok : ∀ l ∈ input.splitOn '\n', line_ok l = true)
    (hnodup :
      (((input.splitOn '\n').filterMap line_entry).map Prod.snd).Nodup)
    (hparse : parse_git_status input = some stats) :
    (∀ x ∈ stats.added, x ∉ stats.modified) ∧
    (∀ x ∈ stats.added, x ∉ stats.deleted) ∧
    (∀ x ∈ stats.modified, x ∉ stats.deleted) := by
  unfold parse_git_status at hparse
  rw [foldlM_parse_line (input.splitOn '\n') ⟨[], [], []⟩ hok] at hparse
  injection hparse with hstats
  subst hstats
  simp only [List.nil_append]
  exact ⟨collect_disjoint _ hnodup .added .modified (by decide),
    collect_disjoint _ hnodup .added .deleted (by decide),
    collect_disjoint _ hnodup .modified .deleted (by decide)⟩

/-- Witness for C7 (amended) at the concrete input
`"A  a.txt\nM  b.txt\nD  c.txt"`. -/
theorem C7_witness :
    (∀ l ∈ ("A  a.txt\nM  b.txt\nD  c.txt".data).splitOn '\n',
      line_ok l = true) ∧
    ((("A  a.txt\nM  b.txt\nD  c.txt".data).splitOn '\n'
        |>.filterMap line_entry |>.map Prod.snd).Nodup ∧
    ((∀ x ∈ (FileChangeStats.mk ["a.txt".data] ["b.txt".data]
        ["c.txt".data]).added,
        x ∉ (FileChangeStats.mk ["a.txt".data] ["b.txt".data]
          ["c.txt".data]).modified) ∧
     (∀ x ∈ (FileChangeStats.mk ["a.txt".data] ["b.txt".data]
        ["c.txt".data]).added,
        x ∉ (FileChangeStats.mk ["a.txt".data] ["b.txt".data]
          ["c.txt".data]).deleted) ∧
     (∀ x ∈ (FileChangeStats.mk ["a.txt".data] ["b.txt".data]
        ["c.txt".data]).modified,
        x ∉ (FileChangeStats.mk ["a.txt".data] ["b.txt".data]
          ["c.txt".data]).deleted))) :=
  ⟨by decide, by decide,
    C7_lists_disjoint "A  a.txt\nM  b.txt\nD  c.txt".data
      (FileChangeStats.mk ["a.txt".data] ["b.txt".data] ["c.txt".data])
      (by decide) (by decide) (by decide)⟩

/-- Claim C3: for every `FileChangeStats` the commit subject equals the
claim's rendering: `"Sync N file"` (pluralized when `N ≠ 1`, where `N` is
the sum of the three list lengths) followed, exactly when at least one list
is non-empty, by the parenthesized comma-joined non-empty counts in the
fixed order added, modified, deleted; with all lists empty it is
`"Sync 0 files"` with no parenthetical. -/
theorem C3_commit_subject (stats : FileChangeStats) :
    (generate_commit_message stats).1 = claim_subject stats := by
  unfold generate_commit_message claim_subject
  by_cases ha : stats.added = [] <;> by_cases hm : stats.modified = [] <;>
    by_cases hd : stats.deleted = [] <;>
    simp [ha, hm, hd, List.append_assoc] <;>
    split_ifs <;> simp [List.append_assoc]

theorem gcm_snd (stats : FileChangeStats) :
    (generate_commit_message stats).2 = rustTrim (body_raw stats) := rfl

theorem intercalate_one (sep a : List Char) :
    List.intercalate sep [a] = a := by
  simp [List.intercalate]

theorem intercalate_two (sep a b : List Char) (t : List (List Char)) :
    List.intercalate sep (a :: b :: t) =
      a ++ sep ++ List.intercalate sep (b :: t) := by
  simp [List.intercalate, List.intersperse]

theorem flatMap_lines (mark : List Char) : ∀ (files : List (List Char)),
    files ≠ [] →
    files.flatMap (fun f => mark ++ f ++ ['\n']) =
      List.intercalate ['\n'] (files.map fun f => mark ++ f) ++ ['\n'] := by
  intro files
  induction files with
  | nil => intro h; exact absurd rfl h
  | cons f fs ih =>
    intro _
    cases fs with
    | nil => simp [intercalate_one]
    | cons g t =>
      rw [List.flatMap_cons, List.map_cons, List.map_cons, intercalate_two,
        ih (by simp)]
      simp [List.append_assoc]

theorem sec_eq (header mark : List Char) (l : List (List Char))
    (h : l ≠ []) :
    (header ++ ['\n']) ++ l.flatMap (fun f => mark ++ f ++ ['\n']) =
      claim_section header mark l ++ ['\n'] := by
  rw [flatMap_lines mark l h]
  unfold claim_section
  simp [List.append_assoc]

theorem header_A : "Added files:\n".data = "Added files:".data ++ ['\n'] :=
  by decide

theorem header_M :
    "Modified files:\n".data = "Modified files:".data ++ ['\n'] := by decide

theorem header_D :
    "Deleted files:\n".data = "Deleted files:".data ++ ['\n'] := by decide

theorem body_raw_eq (stats : FileChangeStats)
    (h : ¬(stats.added = [] ∧ stats.modified = [] ∧ stats.deleted = [])) :
    body_raw stats = claim_body stats ++ ['\n'] := by
  unfold body_raw claim_body claim_sections
  by_cases ha : stats.added = [] <;> by_cases hm : stats.modified = [] <;>
    by_cases hd : stats.deleted = []
  · exact absurd ⟨ha, hm, hd⟩ h
  · -- only deleted non-empty
    rw [if_pos ha, if_pos hm, if_neg hd,
      if_neg (show ¬(stats.added ≠ [] ∨ stats.modified ≠ []) from
        fun hor => hor.elim (fun h2 => h2 ha) (fun h2 => h2 hm)),
      if_pos ha, if_pos hm, if_neg hd,
      header_D, sec_eq "Deleted files:".data "  - ".data stats.deleted hd]
    simp [intercalate_one]
  · -- only modified non-empty
    rw [if_pos ha, if_neg hm,
      if_neg (show ¬stats.added ≠ [] from fun h2 => h2 ha),
      if_pos hd, if_pos ha, if_neg hm, if_pos hd,
      header_M,
      sec_eq "Modified files:".data "  ~ ".data stats.modified hm]
    simp [intercalate_one]
  · -- modified and deleted non-empty
    rw [if_pos ha, if_neg hm,
      if_neg (show ¬stats.added ≠ [] from fun h2 => h2 ha),
      if_neg hd,
      if_pos (show stats.added ≠ [] ∨ stats.modified ≠ [] from Or.inr hm),
      if_pos ha, if_neg hm, if_neg hd,
      header_M, header_D,
      sec_eq "Modified files:".data "  ~ ".data stats.modified hm,
      sec_eq "Deleted files:".data "  - ".data stats.deleted hd]
    simp [intercalate_one, intercalate_two, List.append_assoc]
  · -- only added non-empty
    rw [if_neg ha, if_pos hm, if_pos hd, if_neg ha, if_pos hm, if_pos hd,
      header_A, sec_eq "Added files:".data "  + ".data stats.added ha]
    simp [intercalate_one]
  · -- added and deleted non-empty
    rw [if_neg ha, if_pos hm, if_neg hd,
      if_pos (show stats.added ≠ [] ∨ stats.modified ≠ [] from Or.inl ha),
      if_neg ha, if_pos hm, if_neg hd,
      header_A, header_D,
      sec_eq "Added files:".data "  + ".data stats.added ha,
      sec_eq "Deleted files:".data "  - ".data stats.deleted hd]
    simp [intercalate_one, intercalate_two, List.append_assoc]
  · -- added and modified non-empty
    rw [if_neg ha, if_neg hm,
      if_pos (show stats.added ≠ [] from ha),
      if_pos hd, if_neg ha, if_neg hm, if_pos hd,
      header_A, header_M,
      sec_eq "Added files:".data "  + ".data stats.added ha,
      sec_eq "Modified files:".data "  ~ ".data stats.modified hm]
    simp [intercalate_one, intercalate_two, List.append_assoc]
  · -- all three non-empty
    rw [if_neg ha, if_neg hm,
      if_pos (show stats.added ≠ [] from ha),
      if_neg hd,
      if_pos (show stats.added ≠ [] ∨ stats.modified ≠ [] from Or.inl ha),
      if_neg ha, if_neg hm, if_neg hd,
      header_A, header_M, header_D,
      sec_eq "Added files:".data "  + ".data stats.added ha,
      sec_eq "Modified files:".data "  ~ ".data stats.modified hm,
      sec_eq "Deleted files:".data "  - ".data stats.deleted hd]
    simp [intercalate_one, intercalate_two, List.append_assoc]

theorem rustTrim_concat (s : List Char) (c d : Char)
    (hc1 : s.head? = some c) (hc2 : rust_is_whitespace c = false)
    (hd1 : s.getLast? = some d) (hd2 : rust_is_whitespace d = false) :
    rustTrim (s ++ ['\n']) = s := by
  obtain ⟨t, rfl⟩ : ∃ t, s = c :: t := by
    cases s with
    | nil => simp at hc1
    | cons a t =>
      simp only [List.head?_cons, Option.some_inj] at hc1
      exact ⟨t, by rw [hc1]⟩
  obtain ⟨u, hu⟩ : ∃ u, (c :: t).reverse = d :: u := by
    have h1 : (c :: t).reverse.head? = some d := by
      rw [List.head?_reverse]; exact hd1
    cases hr : (c :: t).reverse with
    | nil => rw [hr] at h1; simp at h1
    | cons b u =>
      rw [hr] at h1
      simp only [List.head?_cons, Option.some_inj] at h1
      exact ⟨u, by rw [h1]⟩
  unfold rustTrim
  rw [List.cons_append, List.dropWhile_cons, if_neg (by simp [hc2]),
    ← List.cons_append, List.reverse_append, List.reverse_singleton,
    List.singleton_append, hu, List.dropWhile_cons, if_pos (by decide),
    List.dropWhile_cons, if_neg (by simp [hd2]), ← hu, List.reverse_reverse]

theorem claim_section_head (header mark : List Char) (l : List (List Char))
    (c : Char) (hh : header.head? = some c) :
    (claim_section header mark l).head? = some c := by
  unfold claim_section
  have hne : header ≠ [] := by intro e; rw [e] at hh; simp at hh
  rw [List.append_assoc, List.head?_append_of_ne_nil header hne, hh]

theorem head?_intercalate_cons (sep x : List Char) (xs : List (List Char))
    (c : Char) (hx : x.head? = some c) :
    (List.intercalate sep (x :: xs)).head? = some c := by
  cases xs with
  | nil => rw [intercalate_one]; exact hx
  | cons b t =>
    rw [intercalate_two]
    have hxne : x ≠ [] := by intro e; rw [e] at hx; simp at hx
    rw [List.append_assoc, List.head?_append_of_ne_nil x hxne, hx]

theorem getLast?_intercalate_concat (sep : List Char) :
    ∀ (xs : List (List Char)) (x : List Char) (d : Char),
    x.getLast? = some d →
    (List.intercalate sep (xs ++ [x])).getLast? = some d := by
  intro xs
  induction xs with
  | nil =>
    intro x d hx
    rw [List.nil_append, intercalate_one]
    exact hx
  | cons a xs ih =>
    intro x d hx
    obtain ⟨b, t, hbt⟩ : ∃ b t, xs ++ [x] = b :: t := by
      cases xs with
      | nil => exact ⟨x, [], rfl⟩
      | cons y ys => exact ⟨y, ys ++ [x], rfl⟩
    rw [List.cons_append, hbt, intercalate_two, ← hbt, List.append_assoc,
      List.getLast?_append, List.getLast?_append, ih x d hx,
      Option.or_some, Option.or_some]

theorem claim_section_getLast (header mark : List Char)
    (l : List (List Char)) (f : List Char) (d : Char)
    (hf : l.getLast? = some f) (hd1 : f.getLast? = some d) :
    (claim_section header mark l).getLast? = some d := by
  unfold claim_section
  have hl : l.dropLast ++ [f] = l := exists_concat_of_getLast l f hf
  have hmap : l.map (fun f2 => mark ++ f2) =
      (l.dropLast.map fun f2 => mark ++ f2) ++ [mark ++ f] := by
    conv_lhs => rw [← hl]
    rw [List.map_append]
    simp
  have hmf : (mark ++ f).getLast? = some d := by
    rw [List.getLast?_append, hd1, Option.or_some]
  rw [hmap, List.getLast?_append, List.getLast?_append,
    getLast?_intercalate_concat ['\n'] _ _ d hmf, Option.or_some]

theorem trim_claim_body (stats : FileChangeStats) (c d : Char)
    (hne : ¬(stats.added = [] ∧ stats.modified = [] ∧ stats.deleted = []))
    (hh : (claim_body stats).head? = some c)
    (hwc : rust_is_whitespace c = false)
    (hl : (claim_body stats).getLast? = some d)
    (hwd : rust_is_whitespace d = false) :
    rustTrim (body_raw stats) = claim_body stats := by
  rw [body_raw_eq stats hne]
  exact rustTrim_concat (claim_body stats) c d hh hwc hl hwd

/-- Claim C4 (amended): for every `FileChangeStats` whose last rendered entry
(the last element of the last non-empty list in render order) is non-empty
and does not end in a whitespace character, the commit body equals the
claim's rendering: one labeled section per non-empty list in the fixed
order Added → Modified → Deleted, each entry on its own line prefixed
`"  + "`, `"  ~ "`, `"  - "`, exactly one blank line between consecutive
sections, and no leading or trailing blank lines.  (Without the proviso the
final `trim` also eats trailing whitespace of the last entry itself.) -/
theorem C4_commit_body (stats : FileChangeStats)
    (hok : ∀ f, last_entry stats = some f → ends_ok f = true) :
    (generate_commit_message stats).2 = claim_body stats := by
  rw [gcm_snd]
  by_cases ha : stats.added = [] <;> by_cases hm : stats.modified = [] <;>
    by_cases hd : stats.deleted = []
  · -- all empty
    simp [body_raw, claim_body, claim_sections, rustTrim, ha, hm, hd,
      List.intercalate]
  · -- only deleted non-empty
    obtain ⟨f, hf⟩ : ∃ f, stats.deleted.getLast? = some f := by
      cases hq : stats.deleted.getLast? with
      | none => exact absurd (List.getLast?_eq_none_iff.mp hq) hd
      | some f => exact ⟨f, rfl⟩
    have he : ends_ok f = true := hok f (by unfold last_entry; rw [hf])
    obtain ⟨d, hd1, hd2⟩ : ∃ d, f.getLast? = some d ∧
        rust_is_whitespace d = false := by
      unfold ends_ok at he
      cases hq : f.getLast? with
      | none => rw [hq] at he; simp at he
      | some d => rw [hq] at he; simp at he; exact ⟨d, rfl, he⟩
    have hsecs : claim_sections stats =
        [claim_section "Deleted files:".data "  - ".data stats.deleted] := by
      simp [claim_sections, ha, hm, hd]
    have hh : (claim_body stats).head? = some 'D' := by
      unfold claim_body
      rw [hsecs]
      exact head?_intercalate_cons _ _ _ 'D'
        (claim_section_head _ _ _ 'D' (by decide))
    have hl : (claim_body stats).getLast? = some d := by
      unfold claim_body
      rw [hsecs]
      exact getLast?_intercalate_concat ['\n', '\n'] []
        (claim_section "Deleted files:".data "  - ".data stats.deleted) d
        (claim_section_getLast _ _ _ f d hf hd1)
    exact trim_claim_body stats 'D' d (fun hcon => hd hcon.2.2) hh
      (by decide) hl hd2
  · -- only modified non-empty
    obtain ⟨f, hf⟩ : ∃ f, stats.modified.getLast? = some f := by
      cases hq : stats.modified.getLast? with
      | none => exact absurd (List.getLast?_eq_none_iff.mp hq) hm
      | some f => exact ⟨f, rfl⟩
    have he : ends_ok f = true :=
      hok f (by unfold last_entry; rw [hd, hf]; rfl)
    obtain ⟨d, hd1, hd2⟩ : ∃ d, f.getLast? = some d ∧
        rust_is_whitespace d = false := by
      unfold ends_ok at he
      cases hq : f.getLast? with
      | none => rw [hq] at he; simp at he
      | some d => rw [hq] at he; simp at he; exact ⟨d, rfl, he⟩
    have hsecs : claim_sections stats =
        [claim_section "Modified files:".data "  ~ ".data stats.modified] :=
      by simp [claim_sections, ha, hm, hd]
    have hh : (claim_body stats).head? = some 'M' := by
      unfold claim_body
      rw [hsecs]
      exact head?_intercalate_cons _ _ _ 'M'
        (claim_section_head _ _ _ 'M' (by decide))
    have hl : (claim_body stats).getLast? = some d := by
      unfold claim_body
      rw [hsecs]
      exact getLast?_intercalate_concat ['\n', '\n'] []
        (claim_section "Modified files:".data "  ~ ".data stats.modified) d
        (claim_section_getLast _ _ _ f d hf hd1)
    exact trim_claim_body stats 'M' d (fun hcon => hm hcon.2.1) hh
      (by decide) hl hd2
  · -- modified and deleted non-empty
    obtain ⟨f, hf⟩ : ∃ f, stats.deleted.getLast? = some f := by
      cases hq : stats.deleted.getLast? with
      | none => exact absurd (List.getLast?_eq_none_iff.mp hq) hd
      | some f => exact ⟨f, rfl⟩
    have he : ends_ok f = true := hok f (by unfold last_entry; rw [hf])
    obtain ⟨d, hd1, hd2⟩ : ∃ d, f.getLast? = some d ∧
        rust_is_whitespace d = false := by
      unfold ends_ok at he
      cases hq : f.getLast? with
      | none => rw [hq] at he; simp at he
      | some d => rw [hq] at he; simp at he; exact ⟨d, rfl, he⟩
    have hsecs : claim_sections stats =
        [claim_section "Modified files:".data "  ~ ".data stats.modified,
         claim_section "Deleted files:".data "  - ".data stats.deleted] :=
      by simp [claim_sections, ha, hm, hd]
    have hh : (claim_body stats).head? = some 'M' := by
      unfold claim_body
      rw [hsecs]
      exact head?_intercalate_cons _ _ _ 'M'
        (claim_section_head _ _ _ 'M' (by decide))
    have hl : (claim_body stats).getLast? = some d := by
      unfold claim_body
      rw [hsecs]
      exact getLast?_intercalate_concat ['\n', '\n']
        [claim_section "Modified files:".data "  ~ ".data stats.modified]
        (claim_section "Deleted files:".data "  - ".data stats.deleted) d
        (claim_section_getLast _ _ _ f d hf hd1)
    exact trim_claim_body stats 'M' d (fun hcon => hd hcon.2.2) hh
      (by decide) hl hd2
  · -- only added non-empty
    obtain ⟨f, hf⟩ : ∃ f, stats.added.getLast? = some f := by
      cases hq : stats.added.getLast? with
      | none => exact absurd (List.getLast?_eq_none_iff.mp hq) ha
      | some f => exact ⟨f, rfl⟩
    have he : ends_ok f = true :=
      hok f (by unfold last_entry; rw [hd, hm, hf]; rfl)
    obtain ⟨d, hd1, hd2⟩ : ∃ d, f.getLast? = some d ∧
        rust_is_whitespace d = false := by
      unfold ends_ok at he
      cases hq : f.getLast? with
      | none => rw [hq] at he; simp at he
      | some d => rw [hq] at he; simp at he; exact ⟨d, rfl, he⟩
    have hsecs : claim_sections stats =
        [claim_section "Added files:".data "  + ".data stats.added] := by
      simp [claim_sections, ha, hm, hd]
    have hh : (claim_body stats).head? = some 'A' := by
      unfold claim_body
      rw [hsecs]
      exact head?_intercalate_cons _ _ _ 'A'
        (claim_section_head _ _ _ 'A' (by decide))
    have hl : (claim_body stats).getLast? = some d := by
      unfold claim_body
      rw [hsecs]
      exact getLast?_intercalate_concat ['\n', '\n'] []
        (claim_section "Added files:".data "  + ".data stats.added) d
        (claim_section_getLast _ _ _ f d hf hd1)
    exact trim_claim_body stats 'A' d (fun hcon => ha hcon.1) hh
      (by decide) hl hd2
  · -- added and deleted non-empty
    obtain ⟨f, hf⟩ : ∃ f, stats.deleted.getLast? = some f := by
      cases hq : stats.deleted.getLast? with
      | none => exact absurd (List.getLast?_eq_none_iff.mp hq) hd
      | some f => exact ⟨f, rfl⟩
    have he : ends_ok f = true := hok f (by unfold last_entry; rw [hf])
    obtain ⟨d, hd1, hd2⟩ : ∃ d, f.getLast? = some d ∧
        rust_is_whitespace d = false := by
      unfold ends_ok at he
      cases hq : f.getLast? with
      | none => rw [hq] at he; simp at he
      | some d => rw [hq] at he; simp at he; exact ⟨d, rfl, he⟩
    have hsecs : claim_sections stats =
        [claim_section "Added files:".data "  + ".data stats.added,
         claim_section "Deleted files:".data "  - ".data stats.deleted] :=
      by simp [claim_sections, ha, hm, hd]
    have hh : (claim_body stats).head? = some 'A' := by
      unfold claim_body
      rw [hsecs]
      exact head?_intercalate_cons _ _ _ 'A'
        (claim_section_head _ _ _ 'A' (by decide))
    have hl : (claim_body stats).getLast? = some d := by
      unfold claim_body
      rw [hsecs]
      exact getLast?_intercalate_concat ['\n', '\n']
        [claim_section "Added files:".data "  + ".data stats.added]
        (claim_section "Deleted files:".data "  - ".data stats.deleted) d
        (claim_section_getLast _ _ _ f d hf hd1)
    exact trim_claim_body stats 'A' d (fun hcon => ha hcon.1) hh
      (by decide) hl hd2
  · -- added and modified non-empty
    obtain ⟨f, hf⟩ : ∃ f, stats.modified.getLast? = some f := by
      cases hq : stats.modified.getLast? with
      | none => exact absurd (List.getLast?_eq_none_iff.mp hq) hm
      | some f => exact ⟨f, rfl⟩
    have he : ends_ok f = true :=
      hok f (by unfold last_entry; rw [hd, hf]; rfl)
    obtain ⟨d, hd1, hd2⟩ : ∃ d, f.getLast? = some d ∧
        rust_is_whitespace d = false := by
      unfold ends_ok at he
      cases hq : f.getLast? with
      | none => rw [hq] at he; simp at he
      | some d => rw [hq] at he; simp at he; exact ⟨d, rfl, he⟩
    have hsecs : claim_sections stats =
        [claim_section "Added files:".data "  + ".data stats.added,
         claim_section "Modified files:".data "  ~ ".data stats.modified] :=
      by simp [claim_sections, ha, hm, hd]
    have hh : (claim_body stats).head? = some 'A' := by
      unfold claim_body
      rw [hsecs]
      exact head?_intercalate_cons _ _ _ 'A'
        (claim_section_head _ _ _ 'A' (by decide))
    have hl : (claim_body stats).getLast? = some d := by
      unfold claim_body
      rw [hsecs]
      exact getLast?_intercalate_concat ['\n', '\n']
        [claim_section "Added files:".data "  + ".data stats.added]
        (claim_section "Modified files:".data "  ~ ".data stats.modified) d
        (claim_section_getLast _ _ _ f d hf hd1)
    exact trim_claim_body stats 'A' d (fun hcon => ha hcon.1) hh
      (by decide) hl hd2
  · -- all three non-empty
    obtain ⟨f, hf⟩ : ∃ f, stats.deleted.getLast? = some f := by
      cases hq : stats.deleted.getLast? with
      | none => exact absurd (List.getLast?_eq_none_iff.mp hq) hd
      | some f => exact ⟨f, rfl⟩
    have he : ends_ok f = true := hok f (by unfold last_entry; rw [hf])
    obtain ⟨d, hd1, hd2⟩ : ∃ d, f.getLast? = some d ∧
        rust_is_whitespace d = false := by
      unfold ends_ok at he
      cases hq : f.getLast? with
      | none => rw [hq] at he; simp at he
      | some d => rw [hq] at he; simp at he; exact ⟨d, rfl, he⟩
    have hsecs : claim_sections stats =
        [claim_section "Added files:".data "  + ".data stats.added,
         claim_section "Modified files:".data "  ~ ".data stats.modified,
         claim_section "Deleted files:".data "  - ".data stats.deleted] :=
      by simp [claim_sections, ha, hm, hd]
    have hh : (claim_body stats).head? = some 'A' := by
      unfold claim_body
      rw [hsecs]
      exact head?_intercalate_cons _ _ _ 'A'
        (claim_section_head _ _ _ 'A' (by decide))
    have hl : (claim_body stats).getLast? = some d := by
      unfold claim_body
      rw [hsecs]
      exact getLast?_intercalate_concat ['\n', '\n']
        [claim_section "Added files:".data "  + ".data stats.added,
         claim_section "Modified files:".data "  ~ ".data stats.modified]
        (claim_section "Deleted files:".data "  - ".data stats.deleted) d
        (claim_section_getLast _ _ _ f d hf hd1)
    exact trim_claim_body stats 'A' d (fun hcon => ha hcon.1) hh
      (by decide) hl hd2

/-- Claim C4 counterexample: the claim asserts the body shape for EVERY
`FileChangeStats`, with each entry on its own line after its prefix.  For
the stats with the single deleted entry `"x "` (trailing space) the claimed
body would be `"Deleted files:\n  - x "`, but the code's final `trim` also
strips the entry's trailing space, producing `"Deleted files:\n  - x"`. -/
theorem C4_counterexample :
    (generate_commit_message ⟨[], [], [['x', ' ']]⟩).2 =
      "Deleted files:\n  - x".data ∧
    (generate_commit_message ⟨[], [], [['x', ' ']]⟩).2 ≠
      "Deleted files:".data ++ ['\n'] ++ "  - ".data ++ ['x', ' '] := by
  exact ⟨by decide, by decide⟩

/-- Witness for C4 (amended) at the stats with the single added file
`"file.txt"`, whose body is exactly `"Added files:\n  + file.txt"`. -/
theorem C4_witness :
    (∀ f, last_entry ⟨["file.txt".data], [], []⟩ = some f →
      ends_ok f = true) ∧
    (generate_commit_message ⟨["file.txt".data], [], []⟩).2 =
      claim_body ⟨["file.txt".data], [], []⟩ ∧
    claim_body ⟨["file.txt".data], [], []⟩ =
      "Added files:\n  + file.txt".data :=
  ⟨by decide,
    C4_commit_body ⟨["file.txt".data], [], []⟩ (by decide),
    by decide⟩

mutual
theorem walk_entry_head (pre : List (List Char)) (e : Entry)
    (p : List (List Char)) (b : Bool) (h : (p, b) ∈ walk_entry pre e) :
    p.head? ≠ some GIT_DIR := by
  cases e with
  | file n =>
    unfold walk_entry at h
    by_cases hg : (pre ++ [n]).head? = some GIT_DIR
    · rw [if_pos hg] at h
      simp at h
    · rw [if_neg hg] at h
      simp only [List.mem_singleton] at h
      obtain ⟨hp, -⟩ := Prod.mk.inj h
      rw [hp]
      exact hg
  | dir n children =>
    unfold walk_entry at h
    by_cases hg : (pre ++ [n]).head? = some GIT_DIR
    · rw [if_pos hg] at h
      simp at h
    · rw [if_neg hg] at h
      rcases List.mem_cons.mp h with h1 | h2
      · obtain ⟨hp, -⟩ := Prod.mk.inj h1
        rw [hp]
        exact hg
      · exact walk_entries_head (pre ++ [n]) children p b h2

theorem walk_entries_head (pre : List (List Char)) (es : EntryList)
    (p : List (List Char)) (b : Bool) (h : (p, b) ∈ walk_entries pre es) :
    p.head? ≠ some GIT_DIR := by
  cases es with
  | nil => simp [walk_entries] at h
  | cons e rest =>
    unfold walk_entries at h
    rcases List.mem_append.mp h with h1 | h2
    · exact walk_entry_head pre e p b h1
    · exact walk_entries_head pre rest p b h2
end

/-- Claim C6: the walk of `sync_files_with_transform` never yields the
top-level `".git"` directory nor anything beneath it — every mirrored
relative path has a first component different from `".git"`, and on the
concrete tree `{.git/config, test.txt}` only `test.txt` is mirrored — while
the exclusion applies only to the first path segment: in the concrete tree
`a/.git/f`, the nested directory `a/.git` and the file `a/.git/f` ARE
walked and mirrored. -/
theorem C6_walk_excludes_git :
    (∀ (root : EntryList) (p : List (List Char)) (b : Bool),
      (p, b) ∈ sync_walk root → p.head? ≠ some GIT_DIR) ∧
    sync_walk top_git_tree = [(["test.txt".data], false)] ∧
    (["a".data, ".git".data], true) ∈ sync_walk nested_git_tree ∧
    (["a".data, ".git".data, "f".data], false) ∈ sync_walk nested_git_tree :=
  ⟨fun root p b h => walk_entries_head [] root p b h, by decide, by decide,
    by decide⟩

/-- Witness for C6: the general exclusion instantiated at the concrete
tree `{.git/config, test.txt}` and the mirrored entry `test.txt`. -/
theorem C6_witness :
    ((["test.txt".data], false) ∈ sync_walk top_git_tree) ∧
    (["test.txt".data] : List (List Char)).head? ≠ some GIT_DIR :=
  ⟨by decide,
    C6_walk_excludes_git.1 top_git_tree ["test.txt".data] false (by decide)⟩

/-- Claim C8: for every key path `k`, `build_git_ssh_command k` is exactly
`"ssh -i " ++ escape_shell_arg k ++ " -o IdentitiesOnly=yes -o
StrictHostKeyChecking=accept-new"`, and `escape_shell_arg` backslash-
prefixes exactly the claim's enumerated characters, leaving every other
character unchanged and in its original order. -/
theorem C8_git_ssh_command (k : List Char) :
    build_git_ssh_command k =
      "ssh -i ".data ++ escape_shell_arg k ++
        " -o IdentitiesOnly=yes -o StrictHostKeyChecking=accept-new".data ∧
    escape_shell_arg k =
      k.flatMap fun ch =>
        if ch ∈ claim_escape_set then ['\\', ch] else [ch] := by
  refine ⟨rfl, ?_⟩
  unfold escape_shell_arg
  congr 1
  funext ch
  have hsets : needs_escape = claim_escape_set := by decide
  rw [hsets]
  by_cases hc : ch ∈ claim_escape_set
  · rw [if_pos (by simpa using hc), if_pos hc]
  · rw [if_neg (by simpa using hc), if_neg hc]

end FileSyncer
